import Mathlib

/-!
Verification development for `interactive_plotting/bokeh_plots.py`.

Numbers handled by the client-side callback scripts and by the color-mapper
resolver are modelled as exact rationals (`ℚ`); undefined numeric results
(division by zero, which the JS host turns into `Infinity`/`NaN`) are
modelled with `Option`/explicit guards.
-/

/- ============================================================
   Histogram rebinning script (`_inter_hist_js_code`, lines 38-74)
   ============================================================ -/

/-- Embeds `x = x.sort((a, b) => a - b)`: the original sample array sorted
ascending. -/
def jsSorted (samples : List ℚ) : List ℚ :=
  samples.insertionSort (· ≤ ·)

/-- Embeds `var bin_size = (x[x.length - 1] - x[0]) / n_bins`. -/
def binSize (samples : List ℚ) (nBins : ℕ) : ℚ :=
  ((jsSorted samples).getLastD 0 - (jsSorted samples).headI) / nBins

/-- Embeds `l_edges[i] = x[0] + bin_size * i`. -/
def lEdges (samples : List ℚ) (nBins : ℕ) : List ℚ :=
  (List.range nBins).map (fun i : ℕ => (jsSorted samples).headI + binSize samples nBins * (i : ℚ))

/-- Embeds `r_edges[i] = x[0] + bin_size * (i + 1)`. -/
def rEdges (samples : List ℚ) (nBins : ℕ) : List ℚ :=
  (List.range nBins).map
    (fun i : ℕ => (jsSorted samples).headI + binSize samples nBins * ((i : ℚ) + 1))

/-- Embeds the inner linear scan
`for (j = 0; j < r_edges.length; j++) { if (x[i] <= r_edges[j]) { ...; break; } }`:
the first index `j` with `v ≤ res[j]`, `none` if no bin accepts the sample. -/
def firstBin (res : List ℚ) (v : ℚ) : Option ℕ :=
  match res with
  | [] => none
  | r :: rest => if v ≤ r then some 0 else (firstBin rest v).map (· + 1)

/-- The (sorted) samples falling into bin `j`: those counted by `hist[j] += 1`. -/
def binMembers (samples : List ℚ) (nBins : ℕ) (j : ℕ) : List ℚ :=
  (jsSorted samples).filter (fun v => firstBin (rEdges samples nBins) v == some j)

/-- The per-bin counts `hist` accumulated by the double loop, before the
density normalisation. -/
def histCounts (samples : List ℚ) (nBins : ℕ) : List ℕ :=
  (List.range nBins).map (fun j => (binMembers samples nBins j).length)

/-- Embeds `var sum = hist.reduce((a, b) => a + b, 0)`. -/
def totalCount (samples : List ℚ) (nBins : ℕ) : ℕ :=
  (histCounts samples nBins).sum

/-- Embeds `var deltas = r_edges.map((c, i) => c - l_edges[i])`. -/
def deltas (samples : List ℚ) (nBins : ℕ) : List ℚ :=
  List.zipWith (fun r l => r - l) (rEdges samples nBins) (lEdges samples nBins)

/-- Embeds `hist = hist.map((c, i) => c / deltas[i] / sum)`.  A zero divisor
(zero-width bin, or zero total count) makes the density undefined in exact
arithmetic (the JS host produces `Infinity`/`NaN` there), which is modelled
by `none`. -/
def densityList (samples : List ℚ) (nBins : ℕ) : Option (List ℚ) :=
  if (∃ d ∈ deltas samples nBins, d = 0) ∨ totalCount samples nBins = 0 then none
  else some (List.zipWith (fun (c : ℕ) d => (c : ℚ) / d / (totalCount samples nBins : ℚ))
    (histCounts samples nBins) (deltas samples nBins))

/-- The normalisation property claimed by the spec: the densities are
defined and the sum of (density × bin width) over all bins equals 1. -/
def densitySumIsOne (samples : List ℚ) (nBins : ℕ) : Prop :=
  ∃ ds, densityList samples nBins = some ds ∧
    (List.zipWith (fun d w => d * w) ds (deltas samples nBins)).sum = 1

/- ============================================================
   Threshold-categorization script (`thresholding_hist`, lines 614-664)
   ============================================================ -/

/-- A category as declared in the `categories` dict of `thresholding_hist`:
a name together with its `[min, max]` boundary pair (the values of the
paired `inp_min_{cat}` / `inp_max_{cat}` text inputs). -/
structure ThreshCategory where
  name : String
  lo : ℚ
  hi : ℚ
deriving DecidableEq

/-- Embeds one branch condition of the generated callback:
`l_edges[i] + mid >= min_cat && r_edges[i] - mid <= max_cat`,
where `mid = (r_edges[i] - l_edges[i]) / 2` (the same value is computed
once per category in the generated code, but does not depend on the
category). -/
def catMatches (l r : ℚ) (c : ThreshCategory) : Bool :=
  decide (c.lo ≤ l + (r - l) / 2) && decide (r - (r - l) / 2 ≤ c.hi)

/-- Embeds the generated `if ... else if ... else { 'default' }` chain for
one bin: the first category (in declaration order) whose boundary accepts
the bin wins; the trailing `else` block assigns `'default'`. -/
def categorize (cats : List ThreshCategory) (l r : ℚ) : String :=
  match cats.find? (catMatches l r) with
  | some c => c.name
  | none => "default"

/-- Embeds the full callback body: loops over all bins, recomputes every
bin's category, and propagates each bin's category to the original rows
listed in `source.data['indices'][i]` (`orig.data['category'][ix] = cat`).
Returns (new bin categories, new per-row categories). -/
def applyThresholds (cats : List ThreshCategory) (lE rE : List ℚ)
    (indices : List (List ℕ)) (origCats : List String) : List String × List String :=
  let binCats := List.zipWith (fun l r => categorize cats l r) lE rE
  let newOrig := (binCats.zip indices).foldl
    (fun acc p => p.2.foldl (fun a ix => a.set ix p.1) acc) origCats
  (binCats, newOrig)

/-- Embeds line 583: `category=['default'] * len(hist)` — the initial bin
categories of the thresholding view's histogram source. -/
def initBinCategories (nbins : ℕ) : List String :=
  List.replicate nbins "default"

/-- Embeds line 583: `indices=[[]] * len(hist)` — the initial (empty)
per-bin row-index lists of the thresholding view's histogram source. -/
def initBinIndices (nbins : ℕ) : List (List ℕ) :=
  List.replicate nbins []

/- ============================================================
   Distance-highlight script (`link_plot`, lines 1130, 1172-1200)
   ============================================================ -/

/-- Reactive state of the distance-highlight view: the remembered root row
(`col.data['value']`), the cutoff slider's value, the color mapper's upper
bound (`mapper.high`) and the per-row highlight column
(`source.data['hl_color']`, `none` = `NaN`). -/
structure LinkState where
  root : ℕ
  sliderVal : ℚ
  mapperHigh : ℚ
  hlColor : List (Option ℚ)
deriving DecidableEq

/-- A widget event of the distance-highlight view: a hover that hit row `j`
(`cb_data.index['1d'].indices[0] == j`), a hover that hit nothing
(`indices.length == 0`), or a cutoff-slider change to value `v`. -/
inductive LinkEvent
  | hover (j : ℕ)
  | hoverMiss
  | sliderSet (v : ℚ)
deriving DecidableEq

/-- Embeds one entry of `update_color_code`:
`isNaN(x) || x > slider.value || hl_key[first] != hl_key[i] ? NaN : x`,
where `x = dmat root i` is the precomputed distance from the root row.
The `x > slider.value` disjunct is only generated when the Python-level
`cutoff` argument is true.  `dmat i j = none` models a `NaN` entry. -/
def hlValue (dmat : ℕ → ℕ → Option ℚ) (hlKey : ℕ → ℤ) (cutoff : Bool)
    (root : ℕ) (sliderVal : ℚ) (i : ℕ) : Option ℚ :=
  match dmat root i with
  | none => none
  | some x => if (cutoff && decide (sliderVal < x)) || decide (hlKey root ≠ hlKey i)
      then none else some x

/-- The recomputed `source.data['hl_color']` column over the `n` rows. -/
def recomputeHl (dmat : ℕ → ℕ → Option ℚ) (hlKey : ℕ → ℤ) (cutoff : Bool) (n : ℕ)
    (root : ℕ) (sliderVal : ℚ) : List (Option ℚ) :=
  (List.range n).map (hlValue dmat hlKey cutoff root sliderVal)

/-- One reactive step.  A slider change reads the stored root
(`var first = col.data['value']`) and recomputes; it never writes
`col.data['value']`.  A hover with a hit sets `col.data['value'] = first`
after recomputing from the hovered row.  A hover with no hit only rewrites
`hl_color` with itself. -/
def linkStep (dmat : ℕ → ℕ → Option ℚ) (hlKey : ℕ → ℤ) (cutoff : Bool) (n : ℕ)
    (s : LinkState) : LinkEvent → LinkState
  | .sliderSet v =>
      { root := s.root, sliderVal := v, mapperHigh := v,
        hlColor := recomputeHl dmat hlKey cutoff n s.root v }
  | .hover j =>
      { root := j, sliderVal := s.sliderVal, mapperHigh := s.mapperHigh,
        hlColor := recomputeHl dmat hlKey cutoff n j s.sliderVal }
  | .hoverMiss => s

/-- Construction-time state: `start_ix = '0'` is the root, the slider is
built with `value=end/2`, `mapper.high` is the max of the root's distance
column, and `df['hl_color'] = np.nan` for every row. -/
def linkInit (n : ℕ) (sliderVal0 mapperHigh0 : ℚ) : LinkState :=
  { root := 0, sliderVal := sliderVal0, mapperHigh := mapperHigh0,
    hlColor := List.replicate n none }

/-- Runs a sequence of widget events from a given state (the reactive
runtime processes events one at a time, in order). -/
def linkRun (dmat : ℕ → ℕ → Option ℚ) (hlKey : ℕ → ℤ) (cutoff : Bool) (n : ℕ)
    (s : LinkState) (events : List LinkEvent) : LinkState :=
  events.foldl (linkStep dmat hlKey cutoff n) s

/-- Does this event hover a row? -/
def isHover : LinkEvent → Bool
  | .hover _ => true
  | _ => false

/- ============================================================
   Kernel-expression evaluator (`_smooth_expression._eval`, lines 199-228)
   ============================================================ -/

/-- The kernel objects built by `_eval` via the `kernels` dict and the
operators `+`, `*`, `**`.  A leaf kernel records the `kernels`-dict type
tag it was built from together with the keyword arguments passed to the
(external) sklearn constructor; keyword-argument values are abstracted to
rationals, since their contents are opaque library data.  `pow` is
`Exponentiation(kernel, scalar)`; `powKernel` records the (lazily
accepted) kernel-valued exponent case. -/
inductive Kernel
  | base (ktype : String) (kwargs : List (String × ℚ))
  | sum (a b : Kernel)
  | prod (a b : Kernel)
  | pow (base : Kernel) (e : ℚ)
  | powKernel (base expo : Kernel)
deriving DecidableEq

/-- One value of the `kernel_params` dict (a Python dict object): the
`'type'` entry while it is still present — `params.pop('type', 'rbf')`
removes it the first time the name is referenced — plus the remaining
keyword arguments for the kernel constructor, with values abstracted to
rationals.  Distinct names are assumed to hold distinct dict objects (the
documented usage). -/
structure KernelParams where
  ktype : Option String
  kwargs : List (String × ℚ)
deriving DecidableEq

/-- The keyword-argument names accepted by each constructor in the
`kernels` dict of `_smooth_expression` (the external sklearn constructor
signatures); `none` for a type tag that is not a key of the dict
(`KeyError`). -/
def acceptedKwargs : String → Option (List String)
  | "const" => some ["constant_value", "constant_value_bounds"]
  | "white" => some ["noise_level", "noise_level_bounds"]
  | "rbf" => some ["length_scale", "length_scale_bounds"]
  | "mat" => some ["length_scale", "length_scale_bounds", "nu"]
  | "rq" => some ["length_scale", "alpha", "length_scale_bounds", "alpha_bounds"]
  | "esn" => some ["length_scale", "periodicity", "length_scale_bounds", "periodicity_bounds"]
  | "dp" => some ["sigma_0", "sigma_0_bounds"]
  | "pw" => some ["gamma", "gamma_bounds", "metric", "pairwise_kernels_kwargs"]
  | _ => none

/-- Embeds `kernels[kernel_type](**params)`: `none` models the host
faults — `KeyError` for a type tag that is not a key of the `kernels`
dict, `TypeError` for a keyword argument the chosen constructor does not
accept (e.g. `RBF(constant_value=1)` after the popped `'type'` falls back
to `'rbf'`). -/
def mkKernel (t : String) (kwargs : List (String × ℚ)) : Option Kernel :=
  match acceptedKwargs t with
  | none => none
  | some acc => if kwargs.all (fun kw => decide (kw.1 ∈ acc)) then some (.base t kwargs)
      else none

/-- A value produced by `_eval`: a plain number (from an `ast.Num` node) or
a kernel object. -/
inductive KVal
  | num (q : ℚ)
  | ker (k : Kernel)
deriving DecidableEq

/-- How evaluation fails: `invalidExpression` is the
`ValueError('... is not a valid key in kernel_params ...')` raised for an
undeclared leaf name with defaulting disabled; `typeFault` covers the
host-level faults (`KeyError` on an unrecognised kernel type tag,
`TypeError` for a keyword argument the constructor rejects or for a
number raised to a kernel power). -/
inductive EvalErr
  | invalidExpression (name : String)
  | typeFault
deriving DecidableEq

/-- The abstract syntax accepted by `_eval`: `ast.Num`, `ast.Name` and
`ast.BinOp` with the three operators of the `operators` dict
(`ast.Add`, `ast.Mult`, `ast.Pow`).  Any other node faults
(`operators[...]` lookup or the final `raise TypeError`), so it is not
represented. -/
inductive PyExpr
  | num (q : ℚ)
  | name (s : String)
  | add (a b : PyExpr)
  | mul (a b : PyExpr)
  | pow (a b : PyExpr)
deriving DecidableEq

/-- Python `**` on two numeric literals, restricted to the exactly
representable case of a nonnegative integer exponent (other exponents give
an irrational/float value, which the claims never exercise; a junk value 0
is returned there). -/
def qpow (a b : ℚ) : ℚ :=
  if 0 ≤ b.num ∧ b.den = 1 then a ^ b.num.toNat else 0

/-- `op.add` on evaluation results: numbers add; kernels build `Sum`; a
number mixed with a kernel is wrapped by sklearn into
`ConstantKernel(number)`. -/
def kvAdd : KVal → KVal → Except EvalErr KVal
  | .num a, .num b => .ok (.num (a + b))
  | .ker a, .ker b => .ok (.ker (.sum a b))
  | .ker a, .num b => .ok (.ker (.sum a (.base "const" [("constant_value", b)])))
  | .num a, .ker b => .ok (.ker (.sum (.base "const" [("constant_value", a)]) b))

/-- `op.mul` on evaluation results (mirrors `kvAdd` with `Product`). -/
def kvMul : KVal → KVal → Except EvalErr KVal
  | .num a, .num b => .ok (.num (a * b))
  | .ker a, .ker b => .ok (.ker (.prod a b))
  | .ker a, .num b => .ok (.ker (.prod a (.base "const" [("constant_value", b)])))
  | .num a, .ker b => .ok (.ker (.prod (.base "const" [("constant_value", a)]) b))

/-- `op.pow` on evaluation results: sklearn's `Kernel.__pow__` wraps any
exponent into `Exponentiation`; a number raised to a kernel has no
reverse-power overload and faults with `TypeError`. -/
def kvPow : KVal → KVal → Except EvalErr KVal
  | .num a, .num b => .ok (.num (qpow a b))
  | .ker a, .num b => .ok (.ker (.pow a b))
  | .ker a, .ker b => .ok (.ker (.powKernel a b))
  | .num _, .ker _ => .error .typeFault

/-- The mutable environment threaded through `_eval`: the `kernel_params`
dict (leaf name → its params dict) and the `kernel_default_params` dict,
both mutated in place by `params.pop('type', 'rbf')`. -/
structure EvalState where
  kparams : String → Option KernelParams
  kdefault : KernelParams

/-- Embeds `_eval` (lines 199-216), including the statefulness of
`kernel_type = params.pop('type', 'rbf')` (line 207): the pop removes the
`'type'` entry from the referenced params dict in place, so a second
reference to the same name falls back to the `'rbf'` tag with the
leftover keyword arguments.  Numbers evaluate to themselves; a name not
declared in `kernel_params` raises the invalid-expression `ValueError`
unless `default=True`, in which case `kernel_default_params` is used (and
popped); a declared name builds its kernel through the `kernels` dict;
binary operations evaluate the left operand, then the right operand in
the mutated environment, and combine the results through the `operators`
dict, any fault aborting the whole evaluation. -/
def pyEval (dflt : Bool) : EvalState → PyExpr → Except EvalErr (KVal × EvalState)
  | st, .num q => .ok (.num q, st)
  | st, .name s =>
      if ¬ dflt ∧ (st.kparams s).isNone then .error (.invalidExpression s)
      else
        match st.kparams s with
        | some p =>
            match mkKernel (p.ktype.getD "rbf") p.kwargs with
            | some k => .ok (.ker k,
                { st with kparams :=
                    fun nm => if nm = s then some { p with ktype := none } else st.kparams nm })
            | none => .error .typeFault
        | none =>
            match mkKernel (st.kdefault.ktype.getD "rbf") st.kdefault.kwargs with
            | some k => .ok (.ker k, { st with kdefault := { st.kdefault with ktype := none } })
            | none => .error .typeFault
  | st, .add a b =>
      match pyEval dflt st a with
      | .error e => .error e
      | .ok (va, st1) =>
          match pyEval dflt st1 b with
          | .error e => .error e
          | .ok (vb, st2) =>
              match kvAdd va vb with
              | .error e => .error e
              | .ok v => .ok (v, st2)
  | st, .mul a b =>
      match pyEval dflt st a with
      | .error e => .error e
      | .ok (va, st1) =>
          match pyEval dflt st1 b with
          | .error e => .error e
          | .ok (vb, st2) =>
              match kvMul va vb with
              | .error e => .error e
              | .ok v => .ok (v, st2)
  | st, .pow a b =>
      match pyEval dflt st a with
      | .error e => .error e
      | .ok (va, st1) =>
          match pyEval dflt st1 b with
          | .error e => .error e
          | .ok (vb, st2) =>
              match kvPow va vb with
              | .error e => .error e
              | .ok v => .ok (v, st2)

/-- The leaf names referenced by an expression, left to right. -/
def leafNames : PyExpr → List String
  | .num _ => []
  | .name _s => [_s]
  | .add a b => leafNames a ++ leafNames b
  | .mul a b => leafNames a ++ leafNames b
  | .pow a b => leafNames a ++ leafNames b

/-- The value kind an expression would evaluate to (number or kernel),
`none` when the expression contains a number-to-kernel power, the one
operator combination that faults regardless of the parameter dicts. -/
inductive KKind
  | knum
  | kker
deriving DecidableEq

/-- Kind analysis of an expression (see `KKind`). -/
def kindOf : PyExpr → Option KKind
  | .num _ => some .knum
  | .name _ => some .kker
  | .add a b =>
      match kindOf a, kindOf b with
      | some .knum, some .knum => some .knum
      | some _, some _ => some .kker
      | _, _ => none
  | .mul a b =>
      match kindOf a, kindOf b with
      | some .knum, some .knum => some .knum
      | some _, some _ => some .kker
      | _, _ => none
  | .pow a b =>
      match kindOf a, kindOf b with
      | some .knum, some .knum => some .knum
      | some .knum, some .kker => none
      | some .kker, some _ => some .kker
      | _, _ => none

/-- The kind of an evaluation result. -/
def kvKind : KVal → KKind
  | .num _ => .knum
  | .ker _ => .kker

/-- The `kernel_params` dict of the spec's worked example:
`{'a': constant(1.0), 'b': linear(2.0)}`, i.e.
`{'a': {'type': 'const', 'constant_value': 1}, 'b': {'type': 'dp',
'sigma_0': 2}}` (`linear` is sklearn's `DotProduct`). -/
def exampleParams : String → Option KernelParams :=
  fun s =>
    if s = "a" then some ⟨some "const", [("constant_value", 1)]⟩
    else if s = "b" then some ⟨some "dp", [("sigma_0", 2)]⟩
    else none

/-- The initial evaluation environment of the worked example:
`exampleParams` together with the empty `kernel_default_params=dict()`. -/
def exampleState : EvalState :=
  { kparams := exampleParams, kdefault := ⟨none, []⟩ }

/-- The parsed form of the spec's worked expression `"(a + b) ** 2"`. -/
def exampleExpr : PyExpr :=
  .pow (.add (.name "a") (.name "b")) (.num 2)

/- ============================================================
   Color mapping resolver (`_create_mapper`, lines 105-147)
   ============================================================ -/

/-- A categorical observation column as stored by pandas: its per-row
values together with the category list recorded on the dtype.  pandas
guarantees every (non-null) value is one of the recorded categories, but
the recorded list may also contain unused categories. -/
structure CatColumn where
  vals : List String
  categories : List String
deriving DecidableEq

/-- One observation-level column of the dataset: categorical
(`dtype.name == 'category'`) or continuous (numeric). -/
inductive ObsColumn
  | cat (c : CatColumn)
  | cont (vals : List ℚ)
deriving DecidableEq

/-- The slice of the annotated dataset read by `_create_mapper`:
observation columns (`adata.obs`), variable names (`adata.var_names`) and
the expression matrix `adata.X` stored column-wise (column `i` holds
`adata.X[:, i]`).  Palettes (`adata.uns`, matplotlib colormap sampling)
only affect the colors, not the factors/bounds, and are not modelled. -/
structure AnnData where
  obs : List (String × ObsColumn)
  varNames : List String
  X : List (List ℚ)
deriving DecidableEq

/-- `adata.obs_keys()`. -/
def obsKeys (a : AnnData) : List String :=
  a.obs.map Prod.fst

/-- The result of `_create_mapper`: a `CategoricalColorMapper` with its
factor list, or a `LinearColorMapper` with its `low`/`high` bounds. -/
inductive ColorMapper
  | categorical (factors : List String)
  | linear (low high : ℚ)
deriving DecidableEq

/-- The failure of `_create_mapper` when the key is on neither axis (the
`assert key in adata.var_names` that the spec names `MissingKeyError`). -/
inductive MapperErr
  | missingKey
deriving DecidableEq

/-- `np.min` over a column (meaningful only for nonempty columns; `np.min`
raises on an empty one). -/
def npMin (l : List ℚ) : ℚ :=
  match l with
  | [] => 0
  | a :: t => t.foldl min a

/-- `np.max` over a column (meaningful only for nonempty columns). -/
def npMax (l : List ℚ) : ℚ :=
  match l with
  | [] => 0
  | a :: t => t.foldl max a

/-- The column `adata.X[:, ix]` for the first variable index matching
`key` (`np.where(adata.var_names == key)[0][0]`). -/
def varColumn (a : AnnData) (key : String) : List ℚ :=
  (a.X.getD (a.varNames.indexOf key) [])

/-- Embeds `_create_mapper`.  A key that is not an observation column must
be a variable name (else `MissingKeyError`) and maps to a linear mapper
over `low=np.min(vals), high=np.max(vals)` of its expression column; a
categorical observation column maps to a categorical mapper whose factors
are `list(map(str, adata.obs[key].cat.categories))`; a continuous
observation column maps to a linear mapper over its min/max. -/
def createMapper (a : AnnData) (key : String) : Except MapperErr ColorMapper :=
  match a.obs.lookup key with
  | none =>
      if key ∈ a.varNames then
        .ok (.linear (npMin (varColumn a key)) (npMax (varColumn a key)))
      else .error .missingKey
  | some (.cat c) => .ok (.categorical c.categories)
  | some (.cont vals) => .ok (.linear (npMin vals) (npMax vals))

/- ============================================================
   Bin-count slider of `interactive_hist` (lines 443-462, 486-489)
   ============================================================ -/

/-- The slider fields mutated by the per-group loop of `interactive_hist`:
its current `value` and the running `max_bins` that becomes `slider.end`
after the loop. -/
structure SliderState where
  value : ℕ
  maxBins : ℕ
deriving DecidableEq

/-- One iteration of the loop body for a non-empty group whose automatic
histogram has `c` bins: `slider.value = len(hist)` then
`max_bins = max(max_bins, slider.value)`. -/
def sliderStep (st : SliderState) (c : ℕ) : SliderState :=
  { value := c, maxBins := max st.maxBins c }

/-- The slider state after looping over the non-empty groups, starting
from `Slider(start=1, end=max_bins, value=0, ...)`.  `binCounts` lists
`len(hist)` for each non-empty group in iteration order (the bin counts
produced by `np.histogram(..., bins=bins)`, an external library call).
The guard reproduces the eager `if max_bins < 1: raise ValueError`
check; on success it returns `(slider.value, slider.end)` with
`slider.end = max_bins` as set after the loop. -/
def interactiveHistSlider (maxBins : ℕ) (binCounts : List ℕ) : Except String (ℕ × ℕ) :=
  if maxBins < 1 then .error "`max_bins` must >= 1"
  else
    let st := binCounts.foldl sliderStep { value := 0, maxBins := maxBins }
    .ok (st.value, st.maxBins)

/- ============================================================
   Helper lemmas
   ============================================================ -/

theorem getLastD_memQ {l : List ℚ} (h : l ≠ []) : l.getLastD 0 ∈ l := by
  rw [List.getLastD_eq_getLast?, List.getLast?_eq_getLast l h]
  exact List.getLast_mem h

theorem le_getLastD_of_sorted {l : List ℚ} (hs : l.Sorted (· ≤ ·)) {v : ℚ} (hv : v ∈ l) :
    v ≤ l.getLastD 0 := by
  induction l with
  | nil => cases hv
  | cons a t ih =>
    rw [List.sorted_cons] at hs
    cases t with
    | nil =>
      simp only [List.mem_singleton] at hv
      simp [hv]
    | cons b t2 =>
      have hg : (a :: b :: t2).getLastD 0 = (b :: t2).getLastD 0 := by simp [List.getLastD]
      rw [hg]
      rcases List.mem_cons.mp hv with h | h
      · subst h
        exact hs.1 _ (getLastD_memQ (by simp))
      · exact ih hs.2 h

theorem headI_le_of_sorted {l : List ℚ} (hs : l.Sorted (· ≤ ·)) {v : ℚ} (hv : v ∈ l) :
    l.headI ≤ v := by
  cases l with
  | nil => cases hv
  | cons a t =>
    rcases List.mem_cons.mp hv with h | h
    · simp [h]
    · exact (List.sorted_cons.mp hs).1 v h

theorem firstBin_isSome_of_exists {res : List ℚ} {v : ℚ} (h : ∃ r ∈ res, v ≤ r) :
    ∃ j, j < res.length ∧ firstBin res v = some j := by
  induction res with
  | nil => simp at h
  | cons r rest ih =>
    by_cases hv : v ≤ r
    · exact ⟨0, by simp, by simp [firstBin, hv]⟩
    · obtain ⟨r2, hr2, hvr2⟩ := h
      rcases List.mem_cons.mp hr2 with h2 | h2
      · exact absurd (h2 ▸ hvr2) hv
      · obtain ⟨j, hj, hfb⟩ := ih ⟨r2, h2, hvr2⟩
        exact ⟨j + 1, by simpa using hj, by simp [firstBin, hv, hfb]⟩

theorem firstBin_spec {res : List ℚ} {v : ℚ} {j : ℕ} (h : firstBin res v = some j) :
    j < res.length ∧ v ≤ res.getD j 0 ∧ ∀ k < j, ¬ v ≤ res.getD k 0 := by
  induction res generalizing j with
  | nil => simp [firstBin] at h
  | cons r rest ih =>
    by_cases hv : v ≤ r
    · simp [firstBin, hv] at h
      subst h
      exact ⟨by simp, by simpa using hv, by omega⟩
    · simp [firstBin, hv] at h
      obtain ⟨j2, hj2, rfl⟩ := h
      obtain ⟨hlt, hle, hnot⟩ := ih hj2
      refine ⟨by simpa using hlt, by simpa using hle, ?_⟩
      intro k hk
      cases k with
      | zero => simpa using hv
      | succ k2 => simpa using hnot k2 (by omega)

theorem list_sum_map_add {α : Type} (l : List α) (f g : α → ℕ) :
    (l.map (fun x => f x + g x)).sum = (l.map f).sum + (l.map g).sum := by
  induction l with
  | nil => simp
  | cons a t ih =>
    simp only [List.map_cons, List.sum_cons, ih]
    omega

theorem sum_range_indicator (n j0 : ℕ) (h : j0 < n) :
    ((List.range n).map (fun j => if j0 = j then 1 else 0)).sum = 1 := by
  induction n with
  | zero => omega
  | succ m ih =>
    rw [List.range_succ]
    by_cases hj : j0 = m
    · subst hj
      have hz : ((List.range j0).map (fun j => if j0 = j then (1 : ℕ) else 0)).sum = 0 := by
        apply List.sum_eq_zero
        intro x hx
        simp only [List.mem_map, List.mem_range] at hx
        obtain ⟨j, hjr, rfl⟩ := hx
        simp [Nat.ne_of_gt hjr]
      simp [List.map_append, List.sum_append, hz]
    · have hm := ih (by omega)
      simp [List.map_append, List.sum_append, hm, hj]

theorem sum_length_filter_eq (g : ℚ → Option ℕ) (l : List ℚ) (n : ℕ)
    (h : ∀ v ∈ l, ∃ j, j < n ∧ g v = some j) :
    ((List.range n).map (fun j => (l.filter (fun v => g v == some j)).length)).sum = l.length := by
  induction l with
  | nil => simp
  | cons a t ih =>
    have ht := ih (fun v hv => h v (List.mem_cons_of_mem a hv))
    obtain ⟨j0, hj0, hg0⟩ := h a (List.mem_cons_self a t)
    have hsplit : ∀ j : ℕ, ((a :: t).filter (fun v => g v == some j)).length
        = (if j0 = j then 1 else 0) + (t.filter (fun v => g v == some j)).length := by
      intro j
      by_cases hj : j0 = j
      · subst hj
        simp [List.filter_cons, hg0]
        omega
      · simp [List.filter_cons, hg0, hj]
    simp only [hsplit]
    rw [list_sum_map_add]
    rw [sum_range_indicator n j0 hj0, ht]
    simp [Nat.add_comm]

theorem sorted_jsSorted (samples : List ℚ) : (jsSorted samples).Sorted (· ≤ ·) :=
  List.sorted_insertionSort (· ≤ ·) samples

theorem perm_jsSorted (samples : List ℚ) : List.Perm (jsSorted samples) samples :=
  List.perm_insertionSort (· ≤ ·) samples

theorem histCounts_sum (samples : List ℚ) (nBins : ℕ) (hn : 1 ≤ nBins) :
    (histCounts samples nBins).sum = samples.length := by
  have hperm := perm_jsSorted samples
  have hsorted := sorted_jsSorted samples
  have hlen : (rEdges samples nBins).length = nBins := by
    rw [rEdges, List.length_map, List.length_range]
  have hassign : ∀ v ∈ jsSorted samples, ∃ j, j < nBins ∧
      firstBin (rEdges samples nBins) v = some j := by
    intro v hv
    have hle : v ≤ (jsSorted samples).getLastD 0 := le_getLastD_of_sorted hsorted hv
    have hex : ∃ r ∈ rEdges samples nBins, v ≤ r := by
      refine ⟨_, List.mem_map.mpr ⟨nBins - 1, List.mem_range.mpr (by omega), rfl⟩, ?_⟩
      have hcast : ((nBins - 1 : ℕ) : ℚ) + 1 = (nBins : ℚ) := by
        rw [Nat.cast_sub hn]
        push_cast
        ring
      rw [hcast, binSize, div_mul_cancel₀ _ (Nat.cast_ne_zero.mpr (by omega : nBins ≠ 0))]
      linarith
    obtain ⟨j, hj, hfb⟩ := firstBin_isSome_of_exists hex
    exact ⟨j, hlen ▸ hj, hfb⟩
  have hpart := sum_length_filter_eq (firstBin (rEdges samples nBins))
    (jsSorted samples) nBins hassign
  simp only [histCounts, binMembers]
  exact hpart.trans hperm.length_eq

theorem zipWith_map_same {α β γ δ : Type} (f : β → γ → δ) (g : α → β) (h2 : α → γ)
    (l : List α) : List.zipWith f (l.map g) (l.map h2) = l.map (fun x => f (g x) (h2 x)) := by
  induction l with
  | nil => rfl
  | cons a t ih => simp [ih]

theorem list_sum_map_div {α : Type} (l : List α) (f : α → ℚ) (c : ℚ) :
    (l.map (fun x => f x / c)).sum = (l.map f).sum / c := by
  induction l with
  | nil => simp
  | cons a t ih => simp [ih, add_div]

theorem list_sum_map_natCast {α : Type} (l : List α) (f : α → ℕ) :
    (l.map (fun x => ((f x : ℕ) : ℚ))).sum = (((l.map f).sum : ℕ) : ℚ) := by
  induction l with
  | nil => simp
  | cons a t ih => simp [ih]

theorem deltas_eq (samples : List ℚ) (nBins : ℕ) :
    deltas samples nBins = (List.range nBins).map (fun _ => binSize samples nBins) := by
  rw [deltas, lEdges, rEdges, zipWith_map_same]
  apply List.map_congr_left
  intro i _
  ring

/- ============================================================
   C1 — rebinning script: count and density normalisation
   ============================================================ -/

/-- C1 counterexample: for the constant sample array `[5, 5]` with
`n_bins = 1` the single bin has zero width, so the density
`count / (bin width × total count)` is undefined in exact arithmetic (the
JS host computes `Infinity`) and the claimed density normalisation fails,
even though the count sum still equals the sample count. -/
theorem c1_rebin_counterexample :
    ¬ ((histCounts [5, 5] 1).sum = 2 ∧ densitySumIsOne [5, 5] 1) := by
  rintro ⟨-, ds, hds, -⟩
  have hnone : densityList [5, 5] 1 = none := by
    rw [densityList, if_pos]
    left
    refine ⟨0, ?_, rfl⟩
    norm_num [deltas, rEdges, lEdges, binSize, jsSorted, List.insertionSort,
      List.orderedInsert, List.range_succ]
  rw [hnone] at hds
  cases hds

/-- C1 (amended): for every sample array and every `n_bins ≥ 1`, after one
trigger the sum of the per-bin counts equals the number of samples; and,
provided the samples are not all equal (so that the bins have nonzero
width — otherwise the density is undefined, as the spec's zero-width edge
case records), the densities are defined and the sum over all bins of
(density × bin width) equals 1 in exact arithmetic. -/
theorem c1_rebin_sums (samples : List ℚ) (nBins : ℕ) (hn : 1 ≤ nBins) :
    (histCounts samples nBins).sum = samples.length ∧
    ((∃ a ∈ samples, ∃ b ∈ samples, a ≠ b) → densitySumIsOne samples nBins) := by
  refine ⟨histCounts_sum samples nBins hn, ?_⟩
  rintro ⟨a, ha, b, hb, hab⟩
  have hperm := perm_jsSorted samples
  have hsorted := sorted_jsSorted samples
  have ha' : a ∈ jsSorted samples := hperm.mem_iff.mpr ha
  have hb' : b ∈ jsSorted samples := hperm.mem_iff.mpr hb
  have hlt : (jsSorted samples).headI < (jsSorted samples).getLastD 0 := by
    rcases lt_or_le (jsSorted samples).headI ((jsSorted samples).getLastD 0) with h | h
    · exact h
    · exact absurd (le_antisymm
        (le_trans (le_getLastD_of_sorted hsorted ha') (h.trans (headI_le_of_sorted hsorted hb')))
        (le_trans (le_getLastD_of_sorted hsorted hb') (h.trans (headI_le_of_sorted hsorted ha'))))
        hab
  have hbs : 0 < binSize samples nBins :=
    div_pos (sub_pos.mpr hlt) (by exact_mod_cast (by omega : 0 < nBins))
  have hbs0 : binSize samples nBins ≠ 0 := ne_of_gt hbs
  have hlen0 : samples.length ≠ 0 := by
    intro h0
    rw [List.length_eq_zero] at h0
    subst h0
    cases ha
  have htot : totalCount samples nBins = samples.length := histCounts_sum samples nBins hn
  have htot0 : totalCount samples nBins ≠ 0 := htot ▸ hlen0
  have htotq : ((totalCount samples nBins : ℕ) : ℚ) ≠ 0 := Nat.cast_ne_zero.mpr htot0
  have hguard : ¬ ((∃ d ∈ deltas samples nBins, d = 0) ∨ totalCount samples nBins = 0) := by
    rintro (⟨d, hd, hd0⟩ | h0)
    · rw [deltas_eq] at hd
      obtain ⟨i, -, rfl⟩ := List.mem_map.mp hd
      exact hbs0 hd0
    · exact htot0 h0
  refine ⟨_, by rw [densityList, if_neg hguard], ?_⟩
  rw [deltas_eq, histCounts, zipWith_map_same, zipWith_map_same]
  have hpt : ∀ j ∈ List.range nBins,
      (((binMembers samples nBins j).length : ℚ) / binSize samples nBins
        / (totalCount samples nBins : ℚ)) * binSize samples nBins
      = ((binMembers samples nBins j).length : ℚ) / (totalCount samples nBins : ℚ) := by
    intro j _
    field_simp
    ring
  rw [List.map_congr_left hpt, list_sum_map_div, list_sum_map_natCast]
  rw [show ((List.range nBins).map (fun j => (binMembers samples nBins j).length)).sum
    = totalCount samples nBins from rfl]
  exact div_self htotq

/-- C1 witness: the amended theorem evaluated at the concrete sample array
`[0, 1]` with one bin. -/
theorem c1_rebin_sums_witness :
    (histCounts [0, 1] 1).sum = 2 ∧ densitySumIsOne [0, 1] 1 := by
  have h := c1_rebin_sums [0, 1] 1 (by norm_num)
  refine ⟨?_, h.2 ⟨0, by norm_num, 1, by norm_num, by norm_num⟩⟩
  simpa using h.1

/- ============================================================
   C2 — rebinning script: first-bin assignment and worked example
   ============================================================ -/

/-- C2: the rebinning script assigns each sample to the first bin (lowest
index, linear scan) whose right edge is ≥ the sample value; concretely,
for samples `[1,2,2,3,4,10]` and `n_bins = 3` the bin size is 3, the left
edges are `[1,4,7]`, the right edges are `[4,7,10]`, sample 4 lands in bin
0 (the right-edge comparison `x[i] <= r_edges[j]` is inclusive), bin 0
receives `{1,2,2,3,4}`, bin 1 receives nothing and bin 2 receives `{10}`. -/
theorem c2_rebin_example :
    (∀ (res : List ℚ) (v : ℚ) (j : ℕ), firstBin res v = some j →
      j < res.length ∧ v ≤ res.getD j 0 ∧ ∀ k < j, ¬ v ≤ res.getD k 0) ∧
    binSize [1, 2, 2, 3, 4, 10] 3 = 3 ∧
    lEdges [1, 2, 2, 3, 4, 10] 3 = [1, 4, 7] ∧
    rEdges [1, 2, 2, 3, 4, 10] 3 = [4, 7, 10] ∧
    firstBin (rEdges [1, 2, 2, 3, 4, 10] 3) 4 = some 0 ∧
    binMembers [1, 2, 2, 3, 4, 10] 3 0 = [1, 2, 2, 3, 4] ∧
    binMembers [1, 2, 2, 3, 4, 10] 3 1 = [] ∧
    binMembers [1, 2, 2, 3, 4, 10] 3 2 = [10] ∧
    histCounts [1, 2, 2, 3, 4, 10] 3 = [5, 0, 1] := by
  refine ⟨fun res v j h => firstBin_spec h, ?_, ?_, ?_, ?_, ?_, ?_, ?_, ?_⟩ <;>
    (norm_num [histCounts, binMembers, firstBin, rEdges, lEdges, binSize, jsSorted,
      List.insertionSort, List.orderedInsert, List.range_succ, List.filter]
     <;> decide)

/-- C2 witness: the general first-bin characterization applied to the
concrete assignment of sample 4 in the worked example. -/
theorem c2_rebin_example_witness :
    0 < (rEdges [1, 2, 2, 3, 4, 10] 3).length ∧
    (4 : ℚ) ≤ (rEdges [1, 2, 2, 3, 4, 10] 3).getD 0 0 := by
  have h := c2_rebin_example
  have h2 := h.1 (rEdges [1, 2, 2, 3, 4, 10] 3) 4 0 h.2.2.2.2.1
  exact ⟨h2.1, h2.2.1⟩

/- ============================================================
   C3 — thresholding script: first-match categorization
   ============================================================ -/

/-- C3: on every trigger each histogram bin is assigned exactly one
category (`categorize` is a total function into the declared names plus
`'default'`, so assignments are mutually exclusive and exhaustive): the
winner is the first declared category whose `[min, max]` boundary contains
the bin's midpoint-trimmed interval `[left+mid, right-mid]`, the default
category wins when none matches, and reordering two categories with
overlapping boundaries changes the winner (concretely `A`/`B` over the
bin `[2, 4]`). -/
theorem c3_threshold_categories :
    (∀ (cats : List ThreshCategory) (l r : ℚ),
      categorize cats l r ∈ "default" :: cats.map ThreshCategory.name) ∧
    (∀ (cats : List ThreshCategory) (l r : ℚ),
      (∀ c ∈ cats, catMatches l r c = false) → categorize cats l r = "default") ∧
    (∀ (pre post : List ThreshCategory) (c : ThreshCategory) (l r : ℚ),
      (∀ c2 ∈ pre, catMatches l r c2 = false) → catMatches l r c = true →
      categorize (pre ++ c :: post) l r = c.name) ∧
    (categorize [⟨"A", 0, 10⟩, ⟨"B", 0, 10⟩] 2 4 = "A" ∧
     categorize [⟨"B", 0, 10⟩, ⟨"A", 0, 10⟩] 2 4 = "B") := by
  refine ⟨?_, ?_, ?_, ?_, ?_⟩
  · intro cats l r
    rw [categorize]
    cases hfind : cats.find? (catMatches l r) with
    | none => simp
    | some c =>
      have hc := List.mem_of_find?_eq_some hfind
      simp only [List.mem_cons, List.mem_map]
      exact Or.inr ⟨c, hc, rfl⟩
  · intro cats l r h
    rw [categorize, List.find?_eq_none.mpr (fun x hx => by simp [h x hx])]
  · intro pre post c l r hpre hc
    rw [categorize, List.find?_append, List.find?_eq_none.mpr (fun x hx => by simp [hpre x hx]),
      Option.none_or, List.find?_cons_of_pos _ hc]
  · norm_num [categorize, List.find?, catMatches]
  · norm_num [categorize, List.find?, catMatches]

/-- C3 witness: the first-match and no-match clauses applied at a concrete
category list and bin. -/
theorem c3_threshold_categories_witness :
    categorize [⟨"A", 0, 10⟩] 2 4 = "A" ∧ categorize [] 2 4 = "default" := by
  have h := c3_threshold_categories
  refine ⟨?_, h.2.1 [] 2 4 (by simp)⟩
  have h3 := h.2.2.1 [] [] ⟨"A", 0, 10⟩ 2 4 (by simp) (by norm_num [catMatches])
  simpa using h3

/- ============================================================
   C9 — thresholding view: empty initial index lists
   ============================================================ -/

theorem foldl_set_empty_indices (bl : List String) (n : ℕ) (acc : List String) :
    (bl.zip (List.replicate n [])).foldl
      (fun acc (p : String × List ℕ) => p.2.foldl (fun a ix => a.set ix p.1) acc) acc = acc := by
  induction bl generalizing n acc with
  | nil => simp
  | cons b t ih =>
    cases n with
    | zero => simp
    | succ m =>
      simp only [List.replicate_succ, List.zip_cons_cons, List.foldl_cons, List.foldl_nil]
      exact ih m acc

/-- C9 (implicit): the thresholding view initialises every bin's row-index
list to `[]` (line 583), so a boundary-text edit before the first
rebinning event recomputes the bin categories but leaves every original
row's category unchanged — in particular, rows initialised to `'default'`
all stay `'default'`, and the embedding scatter coloring is unaffected. -/
theorem c9_threshold_before_rebin (cats : List ThreshCategory) (lE rE : List ℚ)
    (n : ℕ) (origCats : List String) :
    (applyThresholds cats lE rE (initBinIndices n) origCats).1
      = List.zipWith (fun l r => categorize cats l r) lE rE ∧
    (applyThresholds cats lE rE (initBinIndices n) origCats).2 = origCats ∧
    (applyThresholds cats lE rE (initBinIndices n)
      (List.replicate origCats.length "default")).2
      = List.replicate origCats.length "default" := by
  refine ⟨rfl, ?_, ?_⟩
  · exact foldl_set_empty_indices _ n origCats
  · exact foldl_set_empty_indices _ n _

/- ============================================================
   C4 — distance-highlight script: root-row stability
   ============================================================ -/

/-- C4: in every event sequence of the distance-highlight view, a
cutoff-slider change never changes the highlighted root row and recomputes
the highlight values from the last-hovered row at the new cutoff; hovering
a row `j` replaces the root with `j`; and before any hover event the root
is row 0. -/
theorem c4_link_root_stability (dmat : ℕ → ℕ → Option ℚ) (hlKey : ℕ → ℤ) (cutoff : Bool)
    (n : ℕ) (v0 h0 : ℚ) (es : List LinkEvent) (v : ℚ) (j : ℕ) :
    (linkRun dmat hlKey cutoff n (linkInit n v0 h0) (es ++ [.sliderSet v])).root
      = (linkRun dmat hlKey cutoff n (linkInit n v0 h0) es).root ∧
    (linkRun dmat hlKey cutoff n (linkInit n v0 h0) (es ++ [.sliderSet v])).hlColor
      = recomputeHl dmat hlKey cutoff n
          (linkRun dmat hlKey cutoff n (linkInit n v0 h0) es).root v ∧
    (linkRun dmat hlKey cutoff n (linkInit n v0 h0) (es ++ [.hover j])).root = j ∧
    ((∀ e ∈ es, isHover e = false) →
      (linkRun dmat hlKey cutoff n (linkInit n v0 h0) es).root = 0) := by
  have happ : ∀ e : LinkEvent, linkRun dmat hlKey cutoff n (linkInit n v0 h0) (es ++ [e])
      = linkStep dmat hlKey cutoff n (linkRun dmat hlKey cutoff n (linkInit n v0 h0) es) e := by
    intro e
    rw [linkRun, linkRun, List.foldl_append, List.foldl_cons, List.foldl_nil]
  refine ⟨by rw [happ]; rfl, by rw [happ]; rfl, by rw [happ]; rfl, ?_⟩
  have aux : ∀ (l : List LinkEvent) (s : LinkState), (∀ e ∈ l, isHover e = false) →
      (l.foldl (linkStep dmat hlKey cutoff n) s).root = s.root := by
    intro l
    induction l with
    | nil => exact fun _ _ => rfl
    | cons e t ih =>
      intro s h
      have ht : ∀ e2 ∈ t, isHover e2 = false := fun e2 he2 => h e2 (List.mem_cons_of_mem e he2)
      cases e with
      | hover j2 => simpa [isHover] using h _ (List.mem_cons_self _ _)
      | hoverMiss =>
        rw [List.foldl_cons]
        exact (ih (linkStep dmat hlKey cutoff n s .hoverMiss) ht).trans rfl
      | sliderSet v2 =>
        rw [List.foldl_cons]
        exact (ih _ ht).trans rfl
  intro h
  exact (aux es _ h).trans rfl

/-- C4 witness: a concrete run where the slider moves twice before and
after the only hover. -/
theorem c4_link_root_stability_witness :
    (linkRun (fun _ _ => some 1) (fun _ => 0) true 2 (linkInit 2 1 1)
      [.sliderSet 2]).root = 0 := by
  have h := c4_link_root_stability (fun _ _ => some 1) (fun _ => 0) true 2 1 1
    [.sliderSet 2] 3 0
  exact h.2.2.2 (by intro e he; simp at he; simp [he, isHover])

/- ============================================================
   C5 — kernel-expression evaluator
   ============================================================ -/

theorem pyEval_declared_ok :
    ∀ (e : PyExpr) (st : EvalState),
      (∀ nm ∈ leafNames e, ∀ p, st.kparams nm = some p →
        (mkKernel (p.ktype.getD "rbf") p.kwargs).isSome) →
      kindOf e ≠ none →
      (∀ nm, (st.kparams nm).isSome → (leafNames e).count nm ≤ 1) →
      (∀ nm ∈ leafNames e, (st.kparams nm).isSome) →
      ∃ v st', pyEval false st e = .ok (v, st') ∧ kindOf e = some (kvKind v) ∧
        (∀ nm, (st'.kparams nm).isSome ↔ (st.kparams nm).isSome) ∧
        (∀ nm, nm ∉ leafNames e → st'.kparams nm = st.kparams nm) := by
  intro e
  induction e with
  | num q =>
    intro st _ _ _ _
    exact ⟨.num q, st, rfl, rfl, fun _ => Iff.rfl, fun _ _ => rfl⟩
  | name s =>
    intro st hty _ _ hall
    obtain ⟨p, hp⟩ := Option.isSome_iff_exists.mp (hall s (by simp [leafNames]))
    obtain ⟨k, hk⟩ := Option.isSome_iff_exists.mp (hty s (by simp [leafNames]) p hp)
    refine ⟨.ker k,
      { st with kparams :=
          fun nm => if nm = s then some { p with ktype := none } else st.kparams nm },
      ?_, rfl, ?_, ?_⟩
    · rw [pyEval, if_neg (by simp [hp])]
      simp only [hp, hk]
    · intro nm
      by_cases h : nm = s
      · subst h
        simp [hp]
      · simp [h]
    · intro nm hnm
      have h : nm ≠ s := by simpa [leafNames] using hnm
      simp [h]
  | add a b iha ihb =>
    intro st hty hkind hcnt hall
    have hka : kindOf a ≠ none := by
      intro h
      rw [kindOf] at hkind
      rw [h] at hkind
      exact hkind rfl
    have hkb : kindOf b ≠ none := by
      intro h
      rw [kindOf] at hkind
      rw [h] at hkind
      rcases hx : kindOf a with - | k <;> simp [hx] at hkind
    have htyA : ∀ nm ∈ leafNames a, ∀ p, st.kparams nm = some p →
        (mkKernel (p.ktype.getD "rbf") p.kwargs).isSome :=
      fun nm hnm => hty nm (by simp [leafNames, hnm])
    have hcntA : ∀ nm, (st.kparams nm).isSome → (leafNames a).count nm ≤ 1 := by
      intro nm h
      have h2 := hcnt nm h
      rw [leafNames, List.count_append] at h2
      omega
    have hallA : ∀ nm ∈ leafNames a, (st.kparams nm).isSome :=
      fun nm hnm => hall nm (by simp [leafNames, hnm])
    obtain ⟨va, st1, hva, hkva, hsome1, hout1⟩ := iha st htyA hka hcntA hallA
    have htyB1 : ∀ nm ∈ leafNames b, ∀ p, st1.kparams nm = some p →
        (mkKernel (p.ktype.getD "rbf") p.kwargs).isSome := by
      intro nm hnm p hp
      by_cases hmem : nm ∈ leafNames a
      · exfalso
        have hs : (st.kparams nm).isSome := (hsome1 nm).mp (by simp [hp])
        have h2 := hcnt nm hs
        rw [leafNames, List.count_append] at h2
        have c1 := List.count_pos_iff.mpr hmem
        have c2 := List.count_pos_iff.mpr hnm
        omega
      · rw [hout1 nm hmem] at hp
        exact hty nm (by simp [leafNames, hnm]) p hp
    have hcntB1 : ∀ nm, (st1.kparams nm).isSome → (leafNames b).count nm ≤ 1 := by
      intro nm h
      have h2 := hcnt nm ((hsome1 nm).mp h)
      rw [leafNames, List.count_append] at h2
      omega
    have hallB1 : ∀ nm ∈ leafNames b, (st1.kparams nm).isSome :=
      fun nm hnm => (hsome1 nm).mpr (hall nm (by simp [leafNames, hnm]))
    obtain ⟨vb, st2, hvb, hkvb, hsome2, hout2⟩ := ihb st1 htyB1 hkb hcntB1 hallB1
    have hsome : ∀ nm, (st2.kparams nm).isSome ↔ (st.kparams nm).isSome :=
      fun nm => (hsome2 nm).trans (hsome1 nm)
    have hout : ∀ nm, nm ∉ leafNames (.add a b) → st2.kparams nm = st.kparams nm := by
      intro nm hnm
      have hna : nm ∉ leafNames a := fun h => hnm (by simp [leafNames, h])
      have hnb : nm ∉ leafNames b := fun h => hnm (by simp [leafNames, h])
      rw [hout2 nm hnb, hout1 nm hna]
    cases va with
    | num qa =>
      cases vb with
      | num qb =>
        exact ⟨.num (qa + qb), st2, by simp only [pyEval, hva, hvb, kvAdd],
          by rw [kindOf, hkva, hkvb]; rfl, hsome, hout⟩
      | ker kb =>
        exact ⟨.ker (.sum (.base "const" [("constant_value", qa)]) kb), st2,
          by simp only [pyEval, hva, hvb, kvAdd],
          by rw [kindOf, hkva, hkvb]; rfl, hsome, hout⟩
    | ker ka =>
      cases vb with
      | num qb =>
        exact ⟨.ker (.sum ka (.base "const" [("constant_value", qb)])), st2,
          by simp only [pyEval, hva, hvb, kvAdd],
          by rw [kindOf, hkva, hkvb]; rfl, hsome, hout⟩
      | ker kb =>
        exact ⟨.ker (.sum ka kb), st2, by simp only [pyEval, hva, hvb, kvAdd],
          by rw [kindOf, hkva, hkvb]; rfl, hsome, hout⟩
  | mul a b iha ihb =>
    intro st hty hkind hcnt hall
    have hka : kindOf a ≠ none := by
      intro h
      rw [kindOf] at hkind
      rw [h] at hkind
      exact hkind rfl
    have hkb : kindOf b ≠ none := by
      intro h
      rw [kindOf] at hkind
      rw [h] at hkind
      rcases hx : kindOf a with - | k <;> simp [hx] at hkind
    have htyA : ∀ nm ∈ leafNames a, ∀ p, st.kparams nm = some p →
        (mkKernel (p.ktype.getD "rbf") p.kwargs).isSome :=
      fun nm hnm => hty nm (by simp [leafNames, hnm])
    have hcntA : ∀ nm, (st.kparams nm).isSome → (leafNames a).count nm ≤ 1 := by
      intro nm h
      have h2 := hcnt nm h
      rw [leafNames, List.count_append] at h2
      omega
    have hallA : ∀ nm ∈ leafNames a, (st.kparams nm).isSome :=
      fun nm hnm => hall nm (by simp [leafNames, hnm])
    obtain ⟨va, st1, hva, hkva, hsome1, hout1⟩ := iha st htyA hka hcntA hallA
    have htyB1 : ∀ nm ∈ leafNames b, ∀ p, st1.kparams nm = some p →
        (mkKernel (p.ktype.getD "rbf") p.kwargs).isSome := by
      intro nm hnm p hp
      by_cases hmem : nm ∈ leafNames a
      · exfalso
        have hs : (st.kparams nm).isSome := (hsome1 nm).mp (by simp [hp])
        have h2 := hcnt nm hs
        rw [leafNames, List.count_append] at h2
        have c1 := List.count_pos_iff.mpr hmem
        have c2 := List.count_pos_iff.mpr hnm
        omega
      · rw [hout1 nm hmem] at hp
        exact hty nm (by simp [leafNames, hnm]) p hp
    have hcntB1 : ∀ nm, (st1.kparams nm).isSome → (leafNames b).count nm ≤ 1 := by
      intro nm h
      have h2 := hcnt nm ((hsome1 nm).mp h)
      rw [leafNames, List.count_append] at h2
      omega
    have hallB1 : ∀ nm ∈ leafNames b, (st1.kparams nm).isSome :=
      fun nm hnm => (hsome1 nm).mpr (hall nm (by simp [leafNames, hnm]))
    obtain ⟨vb, st2, hvb, hkvb, hsome2, hout2⟩ := ihb st1 htyB1 hkb hcntB1 hallB1
    have hsome : ∀ nm, (st2.kparams nm).isSome ↔ (st.kparams nm).isSome :=
      fun nm => (hsome2 nm).trans (hsome1 nm)
    have hout : ∀ nm, nm ∉ leafNames (.mul a b) → st2.kparams nm = st.kparams nm := by
      intro nm hnm
      have hna : nm ∉ leafNames a := fun h => hnm (by simp [leafNames, h])
      have hnb : nm ∉ leafNames b := fun h => hnm (by simp [leafNames, h])
      rw [hout2 nm hnb, hout1 nm hna]
    cases va with
    | num qa =>
      cases vb with
      | num qb =>
        exact ⟨.num (qa * qb), st2, by simp only [pyEval, hva, hvb, kvMul],
          by rw [kindOf, hkva, hkvb]; rfl, hsome, hout⟩
      | ker kb =>
        exact ⟨.ker (.prod (.base "const" [("constant_value", qa)]) kb), st2,
          by simp only [pyEval, hva, hvb, kvMul],
          by rw [kindOf, hkva, hkvb]; rfl, hsome, hout⟩
    | ker ka =>
      cases vb with
      | num qb =>
        exact ⟨.ker (.prod ka (.base "const" [("constant_value", qb)])), st2,
          by simp only [pyEval, hva, hvb, kvMul],
          by rw [kindOf, hkva, hkvb]; rfl, hsome, hout⟩
      | ker kb =>
        exact ⟨.ker (.prod ka kb), st2, by simp only [pyEval, hva, hvb, kvMul],
          by rw [kindOf, hkva, hkvb]; rfl, hsome, hout⟩
  | pow a b iha ihb =>
    intro st hty hkind hcnt hall
    have hka : kindOf a ≠ none := by
      intro h
      rw [kindOf] at hkind
      rw [h] at hkind
      exact hkind rfl
    have hkb : kindOf b ≠ none := by
      intro h
      rw [kindOf] at hkind
      rw [h] at hkind
      rcases hx : kindOf a with - | k <;> simp [hx] at hkind
    have htyA : ∀ nm ∈ leafNames a, ∀ p, st.kparams nm = some p →
        (mkKernel (p.ktype.getD "rbf") p.kwargs).isSome :=
      fun nm hnm => hty nm (by simp [leafNames, hnm])
    have hcntA : ∀ nm, (st.kparams nm).isSome → (leafNames a).count nm ≤ 1 := by
      intro nm h
      have h2 := hcnt nm h
      rw [leafNames, List.count_append] at h2
      omega
    have hallA : ∀ nm ∈ leafNames a, (st.kparams nm).isSome :=
      fun nm hnm => hall nm (by simp [leafNames, hnm])
    obtain ⟨va, st1, hva, hkva, hsome1, hout1⟩ := iha st htyA hka hcntA hallA
    have htyB1 : ∀ nm ∈ leafNames b, ∀ p, st1.kparams nm = some p →
        (mkKernel (p.ktype.getD "rbf") p.kwargs).isSome := by
      intro nm hnm p hp
      by_cases hmem : nm ∈ leafNames a
      · exfalso
        have hs : (st.kparams nm).isSome := (hsome1 nm).mp (by simp [hp])
        have h2 := hcnt nm hs
        rw [leafNames, List.count_append] at h2
        have c1 := List.count_pos_iff.mpr hmem
        have c2 := List.count_pos_iff.mpr hnm
        omega
      · rw [hout1 nm hmem] at hp
        exact hty nm (by simp [leafNames, hnm]) p hp
    have hcntB1 : ∀ nm, (st1.kparams nm).isSome → (leafNames b).count nm ≤ 1 := by
      intro nm h
      have h2 := hcnt nm ((hsome1 nm).mp h)
      rw [leafNames, List.count_append] at h2
      omega
    have hallB1 : ∀ nm ∈ leafNames b, (st1.kparams nm).isSome :=
      fun nm hnm => (hsome1 nm).mpr (hall nm (by simp [leafNames, hnm]))
    obtain ⟨vb, st2, hvb, hkvb, hsome2, hout2⟩ := ihb st1 htyB1 hkb hcntB1 hallB1
    have hsome : ∀ nm, (st2.kparams nm).isSome ↔ (st.kparams nm).isSome :=
      fun nm => (hsome2 nm).trans (hsome1 nm)
    have hout : ∀ nm, nm ∉ leafNames (.pow a b) → st2.kparams nm = st.kparams nm := by
      intro nm hnm
      have hna : nm ∉ leafNames a := fun h => hnm (by simp [leafNames, h])
      have hnb : nm ∉ leafNames b := fun h => hnm (by simp [leafNames, h])
      rw [hout2 nm hnb, hout1 nm hna]
    cases va with
    | num qa =>
      cases vb with
      | num qb =>
        exact ⟨.num (qpow qa qb), st2, by simp only [pyEval, hva, hvb, kvPow],
          by rw [kindOf, hkva, hkvb]; rfl, hsome, hout⟩
      | ker kb =>
        exfalso
        rw [kindOf, hkva, hkvb] at hkind
        exact hkind rfl
    | ker ka =>
      cases vb with
      | num qb =>
        exact ⟨.ker (.pow ka qb), st2, by simp only [pyEval, hva, hvb, kvPow],
          by rw [kindOf, hkva, hkvb]; rfl, hsome, hout⟩
      | ker kb =>
        exact ⟨.ker (.powKernel ka kb), st2, by simp only [pyEval, hva, hvb, kvPow],
          by rw [kindOf, hkva, hkvb]; rfl, hsome, hout⟩

theorem pyEval_undeclared :
    ∀ (e : PyExpr) (st : EvalState),
      (∀ nm ∈ leafNames e, ∀ p, st.kparams nm = some p →
        (mkKernel (p.ktype.getD "rbf") p.kwargs).isSome) →
      kindOf e ≠ none →
      (∀ nm, (st.kparams nm).isSome → (leafNames e).count nm ≤ 1) →
      (∃ nm ∈ leafNames e, st.kparams nm = none) →
      ∃ nm, st.kparams nm = none ∧
        pyEval false st e = .error (.invalidExpression nm) := by
  intro e
  induction e with
  | num q =>
    intro st _ _ _ hex
    simp [leafNames] at hex
  | name s =>
    intro st _ _ _ hex
    obtain ⟨nm, hnm, hnone⟩ := hex
    simp only [leafNames, List.mem_singleton] at hnm
    subst hnm
    exact ⟨nm, hnone, by rw [pyEval, if_pos (by simp [hnone])]⟩
  | add a b iha ihb =>
    intro st hty hkind hcnt hex
    have hka : kindOf a ≠ none := by
      intro h
      rw [kindOf] at hkind
      rw [h] at hkind
      exact hkind rfl
    have hkb : kindOf b ≠ none := by
      intro h
      rw [kindOf] at hkind
      rw [h] at hkind
      rcases hx : kindOf a with - | k <;> simp [hx] at hkind
    have htyA : ∀ nm ∈ leafNames a, ∀ p, st.kparams nm = some p →
        (mkKernel (p.ktype.getD "rbf") p.kwargs).isSome :=
      fun nm hnm => hty nm (by simp [leafNames, hnm])
    have hcntA : ∀ nm, (st.kparams nm).isSome → (leafNames a).count nm ≤ 1 := by
      intro nm h
      have h2 := hcnt nm h
      rw [leafNames, List.count_append] at h2
      omega
    by_cases hundA : ∃ nm ∈ leafNames a, st.kparams nm = none
    · obtain ⟨nm, hnone, herr⟩ := iha st htyA hka hcntA hundA
      exact ⟨nm, hnone, by simp only [pyEval, herr]⟩
    · have hallA : ∀ nm ∈ leafNames a, (st.kparams nm).isSome := by
        intro nm hnm
        rcases hx : st.kparams nm with - | p
        · exact absurd ⟨nm, hnm, hx⟩ hundA
        · rfl
      obtain ⟨va, st1, hva, -, hsome1, hout1⟩ := pyEval_declared_ok a st htyA hka hcntA hallA
      have htyB1 : ∀ nm ∈ leafNames b, ∀ p, st1.kparams nm = some p →
          (mkKernel (p.ktype.getD "rbf") p.kwargs).isSome := by
        intro nm hnm p hp
        by_cases hmem : nm ∈ leafNames a
        · exfalso
          have hs : (st.kparams nm).isSome := (hsome1 nm).mp (by simp [hp])
          have h2 := hcnt nm hs
          rw [leafNames, List.count_append] at h2
          have c1 := List.count_pos_iff.mpr hmem
          have c2 := List.count_pos_iff.mpr hnm
          omega
        · rw [hout1 nm hmem] at hp
          exact hty nm (by simp [leafNames, hnm]) p hp
      have hcntB1 : ∀ nm, (st1.kparams nm).isSome → (leafNames b).count nm ≤ 1 := by
        intro nm h
        have h2 := hcnt nm ((hsome1 nm).mp h)
        rw [leafNames, List.count_append] at h2
        omega
      have hundB1 : ∃ nm ∈ leafNames b, st1.kparams nm = none := by
        obtain ⟨nm, hnm, hnone⟩ := hex
        rw [leafNames, List.mem_append] at hnm
        rcases hnm with h | h
        · exact absurd ⟨nm, h, hnone⟩ hundA
        · refine ⟨nm, h, Option.not_isSome_iff_eq_none.mp (fun hs => ?_)⟩
          have h3 := (hsome1 nm).mp hs
          rw [hnone] at h3
          simp at h3
      obtain ⟨nm, hnone1, herr⟩ := ihb st1 htyB1 hkb hcntB1 hundB1
      have hnone0 : st.kparams nm = none := by
        refine Option.not_isSome_iff_eq_none.mp (fun hs => ?_)
        have h3 := (hsome1 nm).mpr hs
        rw [hnone1] at h3
        simp at h3
      exact ⟨nm, hnone0, by simp only [pyEval, hva, herr]⟩
  | mul a b iha ihb =>
    intro st hty hkind hcnt hex
    have hka : kindOf a ≠ none := by
      intro h
      rw [kindOf] at hkind
      rw [h] at hkind
      exact hkind rfl
    have hkb : kindOf b ≠ none := by
      intro h
      rw [kindOf] at hkind
      rw [h] at hkind
      rcases hx : kindOf a with - | k <;> simp [hx] at hkind
    have htyA : ∀ nm ∈ leafNames a, ∀ p, st.kparams nm = some p →
        (mkKernel (p.ktype.getD "rbf") p.kwargs).isSome :=
      fun nm hnm => hty nm (by simp [leafNames, hnm])
    have hcntA : ∀ nm, (st.kparams nm).isSome → (leafNames a).count nm ≤ 1 := by
      intro nm h
      have h2 := hcnt nm h
      rw [leafNames, List.count_append] at h2
      omega
    by_cases hundA : ∃ nm ∈ leafNames a, st.kparams nm = none
    · obtain ⟨nm, hnone, herr⟩ := iha st htyA hka hcntA hundA
      exact ⟨nm, hnone, by simp only [pyEval, herr]⟩
    · have hallA : ∀ nm ∈ leafNames a, (st.kparams nm).isSome := by
        intro nm hnm
        rcases hx : st.kparams nm with - | p
        · exact absurd ⟨nm, hnm, hx⟩ hundA
        · rfl
      obtain ⟨va, st1, hva, -, hsome1, hout1⟩ := pyEval_declared_ok a st htyA hka hcntA hallA
      have htyB1 : ∀ nm ∈ leafNames b, ∀ p, st1.kparams nm = some p →
          (mkKernel (p.ktype.getD "rbf") p.kwargs).isSome := by
        intro nm hnm p hp
        by_cases hmem : nm ∈ leafNames a
        · exfalso
          have hs : (st.kparams nm).isSome := (hsome1 nm).mp (by simp [hp])
          have h2 := hcnt nm hs
          rw [leafNames, List.count_append] at h2
          have c1 := List.count_pos_iff.mpr hmem
          have c2 := List.count_pos_iff.mpr hnm
          omega
        · rw [hout1 nm hmem] at hp
          exact hty nm (by simp [leafNames, hnm]) p hp
      have hcntB1 : ∀ nm, (st1.kparams nm).isSome → (leafNames b).count nm ≤ 1 := by
        intro nm h
        have h2 := hcnt nm ((hsome1 nm).mp h)
        rw [leafNames, List.count_append] at h2
        omega
      have hundB1 : ∃ nm ∈ leafNames b, st1.kparams nm = none := by
        obtain ⟨nm, hnm, hnone⟩ := hex
        rw [leafNames, List.mem_append] at hnm
        rcases hnm with h | h
        · exact absurd ⟨nm, h, hnone⟩ hundA
        · refine ⟨nm, h, Option.not_isSome_iff_eq_none.mp (fun hs => ?_)⟩
          have h3 := (hsome1 nm).mp hs
          rw [hnone] at h3
          simp at h3
      obtain ⟨nm, hnone1, herr⟩ := ihb st1 htyB1 hkb hcntB1 hundB1
      have hnone0 : st.kparams nm = none := by
        refine Option.not_isSome_iff_eq_none.mp (fun hs => ?_)
        have h3 := (hsome1 nm).mpr hs
        rw [hnone1] at h3
        simp at h3
      exact ⟨nm, hnone0, by simp only [pyEval, hva, herr]⟩
  | pow a b iha ihb =>
    intro st hty hkind hcnt hex
    have hka : kindOf a ≠ none := by
      intro h
      rw [kindOf] at hkind
      rw [h] at hkind
      exact hkind rfl
    have hkb : kindOf b ≠ none := by
      intro h
      rw [kindOf] at hkind
      rw [h] at hkind
      rcases hx : kindOf a with - | k <;> simp [hx] at hkind
    have htyA : ∀ nm ∈ leafNames a, ∀ p, st.kparams nm = some p →
        (mkKernel (p.ktype.getD "rbf") p.kwargs).isSome :=
      fun nm hnm => hty nm (by simp [leafNames, hnm])
    have hcntA : ∀ nm, (st.kparams nm).isSome → (leafNames a).count nm ≤ 1 := by
      intro nm h
      have h2 := hcnt nm h
      rw [leafNames, List.count_append] at h2
      omega
    by_cases hundA : ∃ nm ∈ leafNames a, st.kparams nm = none
    · obtain ⟨nm, hnone, herr⟩ := iha st htyA hka hcntA hundA
      exact ⟨nm, hnone, by simp only [pyEval, herr]⟩
    · have hallA : ∀ nm ∈ leafNames a, (st.kparams nm).isSome := by
        intro nm hnm
        rcases hx : st.kparams nm with - | p
        · exact absurd ⟨nm, hnm, hx⟩ hundA
        · rfl
      obtain ⟨va, st1, hva, -, hsome1, hout1⟩ := pyEval_declared_ok a st htyA hka hcntA hallA
      have htyB1 : ∀ nm ∈ leafNames b, ∀ p, st1.kparams nm = some p →
          (mkKernel (p.ktype.getD "rbf") p.kwargs).isSome := by
        intro nm hnm p hp
        by_cases hmem : nm ∈ leafNames a
        · exfalso
          have hs : (st.kparams nm).isSome := (hsome1 nm).mp (by simp [hp])
          have h2 := hcnt nm hs
          rw [leafNames, List.count_append] at h2
          have c1 := List.count_pos_iff.mpr hmem
          have c2 := List.count_pos_iff.mpr hnm
          omega
        · rw [hout1 nm hmem] at hp
          exact hty nm (by simp [leafNames, hnm]) p hp
      have hcntB1 : ∀ nm, (st1.kparams nm).isSome → (leafNames b).count nm ≤ 1 := by
        intro nm h
        have h2 := hcnt nm ((hsome1 nm).mp h)
        rw [leafNames, List.count_append] at h2
        omega
      have hundB1 : ∃ nm ∈ leafNames b, st1.kparams nm = none := by
        obtain ⟨nm, hnm, hnone⟩ := hex
        rw [leafNames, List.mem_append] at hnm
        rcases hnm with h | h
        · exact absurd ⟨nm, h, hnone⟩ hundA
        · refine ⟨nm, h, Option.not_isSome_iff_eq_none.mp (fun hs => ?_)⟩
          have h3 := (hsome1 nm).mp hs
          rw [hnone] at h3
          simp at h3
      obtain ⟨nm, hnone1, herr⟩ := ihb st1 htyB1 hkb hcntB1 hundB1
      have hnone0 : st.kparams nm = none := by
        refine Option.not_isSome_iff_eq_none.mp (fun hs => ?_)
        have h3 := (hsome1 nm).mpr hs
        rw [hnone1] at h3
        simp at h3
      exact ⟨nm, hnone0, by simp only [pyEval, hva, herr]⟩

/-- C5 counterexample: with the spec's own parameter set for `a`
(`{'type': 'const', 'constant_value': 1}`), the expression `a * a + c` —
`c` undeclared, defaulting disabled — does not fail with the
invalid-expression `ValueError`: the first reference to `a` pops its
`'type'` entry out of the shared dict, so the second reference falls back
to the `'rbf'` tag and `RBF(constant_value=1)` raises `TypeError` before
`c` is ever reached. -/
theorem c5_kernel_counterexample :
    exampleParams "c" = none ∧
    "c" ∈ leafNames (.add (.mul (.name "a") (.name "a")) (.name "c")) ∧
    pyEval false exampleState (.add (.mul (.name "a") (.name "a")) (.name "c"))
      = .error .typeFault := by
  refine ⟨rfl, by simp [leafNames], ?_⟩
  rfl

/-- C5 (amended): evaluating `"(a + b) ** 2"` with kernel parameter sets
`a ↦ constant(1)`, `b ↦ linear/dot-product(2)` builds the kernel object
`(Constant(1) + Linear(2)) ** 2`; and, with defaulting disabled, any
well-kinded expression that references a leaf name with no declared
parameter set — every declared parameter set it references having a
recognised kernel type with accepted keyword arguments, and no declared
name referenced more than once — fails with the invalid-expression
`ValueError` instead of building a kernel.  (A repeated reference to a
declared name hits the dict already mutated by
`params.pop('type', 'rbf')` and can fault with `TypeError` first, as the
counterexample shows.) -/
theorem c5_kernel_expression :
    (∃ st', pyEval false exampleState exampleExpr
      = .ok (.ker (.pow (.sum (.base "const" [("constant_value", 1)])
          (.base "dp" [("sigma_0", 2)])) 2), st')) ∧
    (∀ (st : EvalState) (e : PyExpr),
      (∀ nm ∈ leafNames e, ∀ p, st.kparams nm = some p →
        (mkKernel (p.ktype.getD "rbf") p.kwargs).isSome) →
      kindOf e ≠ none →
      (∀ nm, (st.kparams nm).isSome → (leafNames e).count nm ≤ 1) →
      (∃ nm ∈ leafNames e, st.kparams nm = none) →
      ∃ nm, st.kparams nm = none ∧
        pyEval false st e = .error (.invalidExpression nm)) := by
  constructor
  · exact ⟨_, rfl⟩
  · exact fun st e hty hkind hcnt hund => pyEval_undeclared e st hty hkind hcnt hund

/-- C5 witness: the failure clause applied to `"a + c"` with the example
parameters, where `c` is undeclared and the declared `a` is referenced
exactly once. -/
theorem c5_kernel_expression_witness :
    ∃ nm, exampleState.kparams nm = none ∧
      pyEval false exampleState (.add (.name "a") (.name "c"))
        = .error (.invalidExpression nm) := by
  refine c5_kernel_expression.2 exampleState (.add (.name "a") (.name "c"))
    ?_ (by simp [kindOf]) ?_ ⟨"c", by simp [leafNames], rfl⟩
  · intro nm hnm p hp
    simp only [leafNames, List.mem_append, List.mem_singleton] at hnm
    rcases hnm with h | h
    · subst h
      have hval : exampleState.kparams "a"
          = some ⟨some "const", [("constant_value", 1)]⟩ := rfl
      rw [hval] at hp
      injection hp with h2
      subst h2
      rfl
    · subst h
      have hval : exampleState.kparams "c" = none := rfl
      rw [hval] at hp
      exact Option.noConfusion hp
  · intro nm h
    simp only [leafNames]
    rw [List.count_append]
    rcases eq_or_ne nm "a" with h1 | h1
    · subst h1
      have ha : (["a"] : List String).count "a" = 1 := by decide
      have hc : (["c"] : List String).count "a" = 0 := by decide
      omega
    · have ha : (["a"] : List String).count nm = 0 := List.count_eq_zero.mpr (by simp [h1])
      have hc : (["c"] : List String).count nm ≤ 1 := by
        rcases eq_or_ne nm "c" with h2 | h2
        · subst h2
          decide
        · rw [List.count_eq_zero.mpr (by simp [h2])]
          omega
      omega

/- ============================================================
   C6, C7, C8 — color mapping resolver
   ============================================================ -/

theorem lookup_eq_none_of_not_mem {β : Type} (key : String) (l : List (String × β))
    (h : key ∉ l.map Prod.fst) : l.lookup key = none := by
  induction l with
  | nil => rfl
  | cons p t ih =>
    simp only [List.map_cons, List.mem_cons] at h
    push_neg at h
    obtain ⟨k, v⟩ := p
    simp only at h
    rw [List.lookup_cons, beq_false_of_ne h.1]
    exact ih h.2

theorem foldl_min_mem (t : List ℚ) (a : ℚ) : t.foldl min a ∈ a :: t := by
  induction t generalizing a with
  | nil => simp
  | cons b t2 ih =>
    rw [List.foldl_cons]
    rcases List.mem_cons.mp (ih (min a b)) with h | h
    · rw [h]
      rcases min_choice a b with hm | hm <;> rw [hm] <;> simp
    · simp [h]

theorem foldl_min_le (t : List ℚ) (a : ℚ) : ∀ v ∈ a :: t, t.foldl min a ≤ v := by
  induction t generalizing a with
  | nil =>
    intro v hv
    simp only [List.mem_singleton] at hv
    simp [hv]
  | cons b t2 ih =>
    intro v hv
    rw [List.foldl_cons]
    rcases List.mem_cons.mp hv with h | h
    · subst h
      exact le_trans (ih (min v b) (min v b) (List.mem_cons_self _ _)) (min_le_left v b)
    · rcases List.mem_cons.mp h with h2 | h2
      · subst h2
        exact le_trans (ih (min a v) (min a v) (List.mem_cons_self _ _)) (min_le_right a v)
      · exact ih (min a b) v (List.mem_cons_of_mem _ h2)

theorem foldl_max_mem (t : List ℚ) (a : ℚ) : t.foldl max a ∈ a :: t := by
  induction t generalizing a with
  | nil => simp
  | cons b t2 ih =>
    rw [List.foldl_cons]
    rcases List.mem_cons.mp (ih (max a b)) with h | h
    · rw [h]
      rcases max_choice a b with hm | hm <;> rw [hm] <;> simp
    · simp [h]

theorem foldl_le_max (t : List ℚ) (a : ℚ) : ∀ v ∈ a :: t, v ≤ t.foldl max a := by
  induction t generalizing a with
  | nil =>
    intro v hv
    simp only [List.mem_singleton] at hv
    simp [hv]
  | cons b t2 ih =>
    intro v hv
    rw [List.foldl_cons]
    rcases List.mem_cons.mp hv with h | h
    · subst h
      exact le_trans (le_max_left v b) (ih (max v b) (max v b) (List.mem_cons_self _ _))
    · rcases List.mem_cons.mp h with h2 | h2
      · subst h2
        exact le_trans (le_max_right a v) (ih (max a v) (max a v) (List.mem_cons_self _ _))
      · exact ih (max a b) v (List.mem_cons_of_mem _ h2)

theorem npMin_spec {l : List ℚ} (h : l ≠ []) : npMin l ∈ l ∧ ∀ v ∈ l, npMin l ≤ v := by
  cases l with
  | nil => exact absurd rfl h
  | cons a t =>
    exact ⟨by simpa [npMin] using foldl_min_mem t a, by simpa [npMin] using foldl_min_le t a⟩

theorem npMax_spec {l : List ℚ} (h : l ≠ []) : npMax l ∈ l ∧ ∀ v ∈ l, v ≤ npMax l := by
  cases l with
  | nil => exact absurd rfl h
  | cons a t =>
    exact ⟨by simpa [npMax] using foldl_max_mem t a, by simpa [npMax] using foldl_le_max t a⟩

/-- C7: for every dataset and every continuous column — a continuous
observation column or a variable's expression column — the mapper built by
the resolver is a linear mapper whose `low` is the exact minimum and whose
`high` is the exact maximum of that column's observed values. -/
theorem c7_continuous_mapper_bounds :
    (∀ (a : AnnData) (key : String) (vals : List ℚ),
      a.obs.lookup key = some (.cont vals) → vals ≠ [] →
      createMapper a key = .ok (.linear (npMin vals) (npMax vals)) ∧
      npMin vals ∈ vals ∧ npMax vals ∈ vals ∧
      ∀ v ∈ vals, npMin vals ≤ v ∧ v ≤ npMax vals) ∧
    (∀ (a : AnnData) (key : String),
      key ∉ obsKeys a → key ∈ a.varNames → varColumn a key ≠ [] →
      createMapper a key
        = .ok (.linear (npMin (varColumn a key)) (npMax (varColumn a key))) ∧
      npMin (varColumn a key) ∈ varColumn a key ∧
      npMax (varColumn a key) ∈ varColumn a key ∧
      ∀ v ∈ varColumn a key,
        npMin (varColumn a key) ≤ v ∧ v ≤ npMax (varColumn a key)) := by
  constructor
  · intro a key vals hl hne
    refine ⟨by rw [createMapper, hl], (npMin_spec hne).1, (npMax_spec hne).1, ?_⟩
    exact fun v hv => ⟨(npMin_spec hne).2 v hv, (npMax_spec hne).2 v hv⟩
  · intro a key hobs hvar hne
    refine ⟨?_, (npMin_spec hne).1, (npMax_spec hne).1, ?_⟩
    · rw [createMapper, lookup_eq_none_of_not_mem key a.obs hobs, if_pos hvar]
    · exact fun v hv => ⟨(npMin_spec hne).2 v hv, (npMax_spec hne).2 v hv⟩

/-- C7 witness: the two resolver paths evaluated on concrete datasets. -/
theorem c7_continuous_mapper_bounds_witness :
    createMapper ⟨[("x", ObsColumn.cont [3, 1, 2])], [], []⟩ "x"
      = .ok (.linear (npMin [3, 1, 2]) (npMax [3, 1, 2])) ∧
    npMin [3, 1, 2] = 1 ∧ npMax [3, 1, 2] = 3 ∧
    createMapper ⟨[], ["g"], [[5, 4]]⟩ "g"
      = .ok (.linear (npMin (varColumn ⟨[], ["g"], [[5, 4]]⟩ "g"))
          (npMax (varColumn ⟨[], ["g"], [[5, 4]]⟩ "g"))) := by
  refine ⟨(c7_continuous_mapper_bounds.1 ⟨[("x", ObsColumn.cont [3, 1, 2])], [], []⟩ "x"
      [3, 1, 2] rfl (by simp)).1, ?_, ?_,
    (c7_continuous_mapper_bounds.2 ⟨[], ["g"], [[5, 4]]⟩ "g" (by simp [obsKeys])
      (by simp) (by simp [varColumn])).1⟩
  · norm_num [npMin, List.foldl_cons, List.foldl_nil, min_def]
  · norm_num [npMax, List.foldl_cons, List.foldl_nil, max_def]

/-- The dataset of the C6 counterexample: the categorical column `k` holds
the single observed value `'a'`, but its recorded (pandas) category list
also contains the unused category `'b'`. -/
def c6data : AnnData :=
  { obs := [("k", .cat ⟨["a"], ["a", "b"]⟩)], varNames := [], X := [] }

/-- C6 counterexample: on `c6data` the resolver's factor list is the
recorded category list `['a', 'b']`, whose set is strictly larger than the
set of distinct observed values `{'a'}` — the claimed factor-set equality
fails whenever the recorded categories contain an unused entry. -/
theorem c6_factors_counterexample :
    createMapper c6data "k" = .ok (.categorical ["a", "b"]) ∧
    (["a", "b"] : List String).toFinset ≠ (["a"] : List String).toFinset := by
  refine ⟨rfl, ?_⟩
  intro h
  have : ("b" : String) ∈ (["a"] : List String).toFinset := h ▸ (by simp)
  simp at this

/-- C6 (amended): the categorical mapper's factor list equals the category
list recorded in the dataset, in recorded order; under the pandas
invariant (every observed value is a recorded category) the observed
values are therefore a subset of the factors, and the factor set equals
the set of distinct observed values exactly when every recorded category
is actually observed. -/
theorem c6_categorical_mapper_factors (a : AnnData) (key : String) (c : CatColumn)
    (hl : a.obs.lookup key = some (.cat c)) :
    createMapper a key = .ok (.categorical c.categories) ∧
    ((∀ v ∈ c.vals, v ∈ c.categories) →
      ∀ v ∈ c.vals, v ∈ c.categories) ∧
    ((∀ v ∈ c.vals, v ∈ c.categories) → (∀ cat ∈ c.categories, cat ∈ c.vals) →
      c.categories.toFinset = c.vals.toFinset) := by
  refine ⟨by rw [createMapper, hl], fun h => h, ?_⟩
  intro h1 h2
  ext x
  simp only [List.mem_toFinset]
  exact ⟨h2 x, h1 x⟩

/-- C6 witness: the amended theorem applied to a dataset whose recorded
categories are exactly the observed values. -/
theorem c6_categorical_mapper_factors_witness :
    createMapper ⟨[("k", ObsColumn.cat ⟨["a", "b"], ["a", "b"]⟩)], [], []⟩ "k"
      = .ok (.categorical ["a", "b"]) ∧
    (["a", "b"] : List String).toFinset = (["a", "b"] : List String).toFinset := by
  have h := c6_categorical_mapper_factors
    ⟨[("k", ObsColumn.cat ⟨["a", "b"], ["a", "b"]⟩)], [], []⟩ "k" ⟨["a", "b"], ["a", "b"]⟩ rfl
  exact ⟨h.1, h.2.2 (fun v hv => hv) (fun cat hcat => hcat)⟩

/-- C8: the resolver, given a column name present neither among the
observation columns nor among the variable names, fails with the
missing-key error and builds no mapper. -/
theorem c8_missing_key (a : AnnData) (key : String)
    (h1 : key ∉ obsKeys a) (h2 : key ∉ a.varNames) :
    createMapper a key = .error .missingKey := by
  rw [createMapper, lookup_eq_none_of_not_mem key a.obs h1, if_neg h2]

/-- C8 witness: the empty dataset with an absent key. -/
theorem c8_missing_key_witness :
    createMapper ⟨[], [], []⟩ "z" = .error .missingKey :=
  c8_missing_key ⟨[], [], []⟩ "z" (by simp [obsKeys]) (by simp)

/- ============================================================
   C10 — interactive_hist bin slider
   ============================================================ -/

theorem sliderLoop_spec (binCounts : List ℕ) : ∀ st : SliderState,
    (binCounts.foldl sliderStep st).value = binCounts.getLastD st.value ∧
    (binCounts.foldl sliderStep st).maxBins = binCounts.foldl max st.maxBins := by
  induction binCounts with
  | nil => exact fun _ => ⟨rfl, rfl⟩
  | cons c t ih =>
    intro st
    rw [List.foldl_cons, List.foldl_cons, List.getLastD_cons]
    exact ⟨(ih (sliderStep st c)).1, (ih (sliderStep st c)).2⟩

theorem foldl_max_init (bcs : List ℕ) : ∀ m : ℕ, bcs.foldl max m = max m (bcs.foldl max 0) := by
  induction bcs with
  | nil => intro m; simp
  | cons c t ih =>
    intro m
    rw [List.foldl_cons, List.foldl_cons, ih (max m c), ih (max 0 c)]
    omega

/-- C10 (implicit): for `interactive_hist`, the slider's end after the
per-group loop is the maximum of the caller's `max_bins` and the largest
automatic bin count over the non-empty groups — so automatic binning can
raise the effective upper bound past the `max_bins` argument — and the
slider's value is the bin count of the last non-empty group processed
(0 if there is none, as initialised). -/
theorem c10_interactive_hist_slider (maxBins : ℕ) (binCounts : List ℕ) (h : 1 ≤ maxBins) :
    interactiveHistSlider maxBins binCounts
      = .ok (binCounts.getLastD 0, max maxBins (binCounts.foldl max 0)) := by
  rw [interactiveHistSlider, if_neg (by omega)]
  have h1 := (sliderLoop_spec binCounts ⟨0, maxBins⟩).1
  have h2 := (sliderLoop_spec binCounts ⟨0, maxBins⟩).2
  rw [Except.ok.injEq, Prod.mk.injEq]
  exact ⟨by rw [h1], by rw [h2, foldl_max_init]⟩

/-- C10 witness: `max_bins = 2` with automatic bin counts `[5, 3]` gives a
slider end of 5 (raised past `max_bins`) and a slider value of 3 (the last
group's bin count). -/
theorem c10_interactive_hist_slider_witness :
    interactiveHistSlider 2 [5, 3] = .ok (3, 5) :=
  (c10_interactive_hist_slider 2 [5, 3] (by omega)).trans (by rfl)
